import Mathlib

/-!
Shallow embedding of `src/memory_manager.py` (First-Fit Memory Management
Simulator): the `MemoryBlock` record, the `FirstFitMemoryManager` state, and
the operations `allocate_memory`, `deallocate_memory`, `_merge_free_blocks`
and `get_memory_status`, followed by theorems settling the specification
claims about them.

Python integers are modelled as `Int` (arbitrary precision, no overflow);
`process_id` is `Option Int` (`None` ↦ `none`); the string messages appended
to `allocation_log` are modelled as structured `LogEntry` records carrying
exactly the data interpolated into the Python f-strings; the float division
in `memory_utilization` is modelled over `ℚ`, and `get_memory_status` returns
`none` exactly when the Python code would raise `ZeroDivisionError`
(`total_memory = 0`).
-/

/-- Python class `MemoryBlock`: a block is a start address, a size, a free flag and
an optional owning process id. -/
structure MemoryBlock where
  start_address : Int
  size : Int
  is_free : Bool
  process_id : Option Int
deriving DecidableEq, Repr

/-- One entry of `allocation_log`, structured instead of an f-string; each
constructor carries the values the Python code interpolates. -/
inductive LogEntry where
  /-- Message `ERROR: Invalid size ... for process ...`. -/
  | invalidSize (pid size : Int)
  /-- Message `ERROR: Process ... already has memory allocated`. -/
  | alreadyAllocated (pid : Int)
  /-- Message `SUCCESS: Allocated ... units to process ... at address ...`. -/
  | allocSuccess (pid size addr : Int)
  /-- Message `ERROR: Cannot allocate ... units for process ... - No suitable free block found`. -/
  | noSuitableBlock (pid size : Int)
  /-- Message `SUCCESS: Deallocated memory for process ... (... units at address ...)`. -/
  | deallocSuccess (pid size addr : Int)
  /-- Message `ERROR: Process ... has no allocated memory`. -/
  | noAllocatedMemory (pid : Int)
  /-- Message `INFO: Merged free blocks at ... (total size: ...)`. -/
  | mergedBlocks (addr size : Int)
deriving DecidableEq, Repr

/-- Python class `FirstFitMemoryManager`: total memory, the ordered block list and
the append-only log. -/
structure FirstFitMemoryManager where
  total_memory : Int
  memory_blocks : List MemoryBlock
  allocation_log : List LogEntry
deriving DecidableEq, Repr

namespace FirstFitMemoryManager

/-- Constructor `__init__(self, total_memory=1000)`: one free block spanning the whole
space, empty log.  The Python constructor performs no validation of
`total_memory`. -/
def init (total_memory : Int) : FirstFitMemoryManager :=
  { total_memory := total_memory
    memory_blocks := [⟨0, total_memory, true, none⟩]
    allocation_log := [] }

/-- The duplicate-owner check of `allocate_memory` (the loop at lines 56-59):
`any(not b.is_free and b.process_id == process_id for b in blocks)`. -/
def hasAllocation (blocks : List MemoryBlock) (pid : Int) : Bool :=
  blocks.any fun b => !b.is_free && b.process_id == some pid

/-- The first-fit scan-and-mutate loop of `allocate_memory` (lines 62-85):
returns the updated block list and the placement address of the first free
block with `size >= requested`, or `none` when no block qualifies. -/
def allocScan (pid size : Int) : List MemoryBlock → Option (List MemoryBlock × Int)
  | [] => none
  | b :: rest =>
      if b.is_free = true ∧ size ≤ b.size then
        if size < b.size then
          some (⟨b.start_address, size, false, some pid⟩ ::
                ⟨b.start_address + size, b.size - size, true, none⟩ :: rest,
                b.start_address)
        else
          some (⟨b.start_address, b.size, false, some pid⟩ :: rest, b.start_address)
      else
        (allocScan pid size rest).map fun p => (b :: p.1, p.2)

/-- Method `allocate_memory(self, process_id, size)` (lines 40-91). -/
def allocate_memory (m : FirstFitMemoryManager) (pid size : Int) :
    Bool × FirstFitMemoryManager :=
  if size ≤ 0 then
    (false, { m with allocation_log := m.allocation_log ++ [.invalidSize pid size] })
  else if hasAllocation m.memory_blocks pid = true then
    (false, { m with allocation_log := m.allocation_log ++ [.alreadyAllocated pid] })
  else
    match allocScan pid size m.memory_blocks with
    | some (blocks, addr) =>
        (true, { m with
                  memory_blocks := blocks
                  allocation_log := m.allocation_log ++ [.allocSuccess pid size addr] })
    | none =>
        (false, { m with allocation_log := m.allocation_log ++ [.noSuitableBlock pid size] })

/-- The deallocation scan of `deallocate_memory` (lines 104-117): frees the
first block owned by `pid` in place, returning the updated list together with
the freed block's size and start address. -/
def deallocScan (pid : Int) : List MemoryBlock → Option (List MemoryBlock × Int × Int)
  | [] => none
  | b :: rest =>
      if b.is_free = false ∧ b.process_id = some pid then
        some (⟨b.start_address, b.size, true, none⟩ :: rest, b.size, b.start_address)
      else
        (deallocScan pid rest).map fun p => (b :: p.1, p.2)

/-- Whether the `while` loop of `_merge_free_blocks` (lines 130-131) merges an
adjacent pair: both free and contiguous. -/
def mergeable (a b : MemoryBlock) : Bool :=
  a.is_free && b.is_free && (a.start_address + a.size == b.start_address)

/-- Method `_merge_free_blocks(self)` (lines 122-140) as a function of the
block list, also returning the `INFO: Merged ...` log entries it appends.
The Python `while` loop keeps the index on the current block after a merge
(so it can absorb several successors) and advances past any non-mergeable
pair without ever looking back; `cur` is the block the index rests on and
the argument list holds the blocks to its right. -/
def mergeFreeBlocksGo (cur : MemoryBlock) : List MemoryBlock → List MemoryBlock × List LogEntry
  | [] => ([cur], [])
  | b :: rest =>
      if mergeable cur b then
        let merged : MemoryBlock := { cur with size := cur.size + b.size }
        let r := mergeFreeBlocksGo merged rest
        (r.1, .mergedBlocks merged.start_address merged.size :: r.2)
      else
        let r := mergeFreeBlocksGo b rest
        (cur :: r.1, r.2)

/-- The full coalescing pass: the loop index starts on the first block. -/
def mergeFreeBlocksAux : List MemoryBlock → List MemoryBlock × List LogEntry
  | [] => ([], [])
  | b :: rest => mergeFreeBlocksGo b rest

/-- The block list after `_merge_free_blocks`. -/
def mergeFreeBlocks (l : List MemoryBlock) : List MemoryBlock :=
  (mergeFreeBlocksAux l).1

/-- Method `deallocate_memory(self, process_id)` (lines 93-120). -/
def deallocate_memory (m : FirstFitMemoryManager) (pid : Int) :
    Bool × FirstFitMemoryManager :=
  match deallocScan pid m.memory_blocks with
  | some (blocks, sz, addr) =>
      let r := mergeFreeBlocksAux blocks
      (true, { m with
                memory_blocks := r.1
                allocation_log := m.allocation_log ++ .deallocSuccess pid sz addr :: r.2 })
  | none =>
      (false, { m with allocation_log := m.allocation_log ++ [.noAllocatedMemory pid] })

/-- Aggregation `sum(block.size for block in self.memory_blocks if block.is_free)`. -/
def totalFree (blocks : List MemoryBlock) : Int :=
  ((blocks.filter fun b => b.is_free).map fun b => b.size).sum

/-- Aggregation `sum(block.size for block in self.memory_blocks if not block.is_free)`. -/
def totalAllocated (blocks : List MemoryBlock) : Int :=
  ((blocks.filter fun b => !b.is_free).map fun b => b.size).sum

/-- The result record of `get_memory_status` (lines 160-169). -/
structure MemoryStatus where
  blocks : List MemoryBlock
  total_memory : Int
  total_free : Int
  total_allocated : Int
  free_block_count : Int
  external_fragmentation : Int
  internal_fragmentation : Int
  memory_utilization : ℚ
deriving DecidableEq, Repr

/-- Method `get_memory_status(self)` (lines 142-169).  Returns `none` exactly when
the Python division `total_allocated / self.total_memory` would raise
`ZeroDivisionError`, i.e. when `total_memory = 0`. -/
def get_memory_status (m : FirstFitMemoryManager) : Option MemoryStatus :=
  if m.total_memory = 0 then none
  else
    let free_blocks := m.memory_blocks.filter fun b => b.is_free
    some
      { blocks := m.memory_blocks
        total_memory := m.total_memory
        total_free := totalFree m.memory_blocks
        total_allocated := totalAllocated m.memory_blocks
        free_block_count := (free_blocks.length : Int)
        external_fragmentation :=
          (free_blocks.length : Int) - (if free_blocks ≠ [] then 1 else 0)
        internal_fragmentation := 0
        memory_utilization :=
          ((totalAllocated m.memory_blocks : ℚ) / (m.total_memory : ℚ)) * 100 }

/-! Specification-side definitions used to state the claims. -/

/-- Index of the first block that is free and at least `size` large — the
block the first-fit policy must choose. -/
def firstFitIndex (size : Int) : List MemoryBlock → Option Nat
  | [] => none
  | b :: rest =>
      if b.is_free = true ∧ size ≤ b.size then some 0
      else (firstFitIndex size rest).map (· + 1)

/-- Modelled from the spec for comparison with the source constructor `init`:
`new(total_size: positive integer) -> Allocator — fails/panics if
total_size <= 0`. -/
def init_checked (total_size : Int) : Option FirstFitMemoryManager :=
  if total_size ≤ 0 then none else some (init total_size)

/-- Whether the first block of the list is free (`false` on the empty list). -/
def headFree : List MemoryBlock → Bool
  | [] => false
  | b :: _ => b.is_free

/-- Invariant I1, first half: starting at `addr`, every block has positive
size and each block begins exactly where the previous one ends (no gaps, no
overlaps, ascending starts). -/
def chainFromB (addr : Int) : List MemoryBlock → Bool
  | [] => true
  | b :: rest =>
      (b.start_address == addr) && decide (0 < b.size) &&
        chainFromB (b.start_address + b.size) rest

/-- Sum of all block sizes; together with `chainFromB 0` it makes the blocks
partition `[0, sizesSum l)`. -/
def sizesSum (l : List MemoryBlock) : Int :=
  (l.map fun b => b.size).sum

/-- Invariant I2: no two adjacent blocks are both free. -/
def noAdjFreeB : List MemoryBlock → Bool
  | a :: b :: rest => (!(a.is_free && b.is_free)) && noAdjFreeB (b :: rest)
  | _ => true

/-- No adjacent pair that `_merge_free_blocks` would merge remains. -/
def noMergeableB : List MemoryBlock → Bool
  | a :: b :: rest => (!mergeable a b) && noMergeableB (b :: rest)
  | _ => true

/-- States reachable from a freshly constructed manager by any sequence of
`allocate_memory` / `deallocate_memory` calls. -/
inductive Reachable (n : Int) : FirstFitMemoryManager → Prop
  | base : Reachable n (init n)
  | alloc (m : FirstFitMemoryManager) (pid size : Int) :
      Reachable n m → Reachable n (allocate_memory m pid size).2
  | dealloc (m : FirstFitMemoryManager) (pid : Int) :
      Reachable n m → Reachable n (deallocate_memory m pid).2

/-- The fragmentation scenario of the spec's first-fit test: in a 1000-unit
space allocate 200 + 300 + 200, then free owners 1 and 3.  The free ranges
are `[0,200)` and `[500,1000)`. -/
def exampleState : FirstFitMemoryManager :=
  (deallocate_memory (deallocate_memory
    (allocate_memory (allocate_memory
      (allocate_memory (init 1000) 1 200).2 2 300).2 3 200).2 1).2 3).2

/-! Characterization of the first-fit scan. -/

lemma firstFitIndex_none_iff (size : Int) (l : List MemoryBlock) :
    firstFitIndex size l = none ↔ ∀ b ∈ l, ¬(b.is_free = true ∧ size ≤ b.size) := by
  induction l with
  | nil => simp [firstFitIndex]
  | cons a rest ih =>
      by_cases h : a.is_free = true ∧ size ≤ a.size
      · simp [firstFitIndex, h]
      · simp only [firstFitIndex, if_neg h, Option.map_eq_none', ih, List.mem_cons]
        constructor
        · rintro hr b (rfl | hb)
          · exact h
          · exact hr b hb
        · intro hr b hb
          exact hr b (Or.inr hb)

lemma allocScan_none_iff (pid size : Int) (l : List MemoryBlock) :
    allocScan pid size l = none ↔ firstFitIndex size l = none := by
  induction l with
  | nil => simp [allocScan, firstFitIndex]
  | cons a rest ih =>
      by_cases h : a.is_free = true ∧ size ≤ a.size
      · by_cases hs : size < a.size <;> simp [allocScan, firstFitIndex, h, hs]
      · simp [allocScan, firstFitIndex, h, Option.map_eq_none', ih]

lemma firstFitIndex_found (size : Int) :
    ∀ (l : List MemoryBlock) (i : Nat), firstFitIndex size l = some i →
      ∃ b, l[i]? = some b ∧ b.is_free = true ∧ size ≤ b.size := by
  intro l
  induction l with
  | nil => intro i h; simp [firstFitIndex] at h
  | cons a rest ih =>
      intro i h
      by_cases hc : a.is_free = true ∧ size ≤ a.size
      · simp only [firstFitIndex, if_pos hc, Option.some.injEq] at h
        subst h
        exact ⟨a, by simp, hc⟩
      · simp only [firstFitIndex, if_neg hc, Option.map_eq_some'] at h
        obtain ⟨j, hj, rfl⟩ := h
        obtain ⟨b, hb, hfree, hsz⟩ := ih j hj
        exact ⟨b, by simpa using hb, hfree, hsz⟩

lemma firstFitIndex_min (size : Int) :
    ∀ (l : List MemoryBlock) (i : Nat), firstFitIndex size l = some i →
      ∀ j, j < i → ∀ b, l[j]? = some b → ¬(b.is_free = true ∧ size ≤ b.size) := by
  intro l
  induction l with
  | nil => intro i h; simp [firstFitIndex] at h
  | cons a rest ih =>
      intro i h j hj b hb
      by_cases hc : a.is_free = true ∧ size ≤ a.size
      · simp only [firstFitIndex, if_pos hc, Option.some.injEq] at h
        omega
      · simp only [firstFitIndex, if_neg hc, Option.map_eq_some'] at h
        obtain ⟨k, hk, rfl⟩ := h
        match j with
        | 0 =>
            simp at hb
            subst hb
            exact hc
        | j' + 1 =>
            simp at hb
            exact ih k hk j' (by omega) b hb

lemma allocScan_of_firstFit (pid size : Int) :
    ∀ (l : List MemoryBlock) (i : Nat) (b : MemoryBlock),
      firstFitIndex size l = some i → l[i]? = some b →
      allocScan pid size l = some
        (l.take i ++
          (if size < b.size then
            [⟨b.start_address, size, false, some pid⟩,
             ⟨b.start_address + size, b.size - size, true, none⟩]
          else [⟨b.start_address, b.size, false, some pid⟩]) ++ l.drop (i + 1),
        b.start_address) := by
  intro l
  induction l with
  | nil => intro i b h; simp [firstFitIndex] at h
  | cons a rest ih =>
      intro i b h hb
      by_cases hc : a.is_free = true ∧ size ≤ a.size
      · simp only [firstFitIndex, if_pos hc, Option.some.injEq] at h
        subst h
        simp only [List.getElem?_cons_zero, Option.some.injEq] at hb
        subst hb
        by_cases hs : size < a.size <;>
          simp [allocScan, hc, hs]
      · simp only [firstFitIndex, if_neg hc, Option.map_eq_some'] at h
        obtain ⟨j, hj, rfl⟩ := h
        simp only [List.getElem?_cons_succ] at hb
        have hrec := ih j b hj hb
        simp [allocScan, hc, hrec, List.take_succ_cons, List.drop_succ_cons]

/-! Unfolding helpers for the Bool-valued invariants. -/

lemma totalFree_cons (b : MemoryBlock) (l : List MemoryBlock) :
    totalFree (b :: l) = (if b.is_free = true then b.size else 0) + totalFree l := by
  cases hb : b.is_free <;> simp [totalFree, hb]

lemma sizesSum_cons (b : MemoryBlock) (l : List MemoryBlock) :
    sizesSum (b :: l) = b.size + sizesSum l := by
  simp [sizesSum]

lemma chainFromB_cons (addr : Int) (b : MemoryBlock) (l : List MemoryBlock) :
    chainFromB addr (b :: l) = true ↔
      b.start_address = addr ∧ 0 < b.size ∧
        chainFromB (b.start_address + b.size) l = true := by
  simp [chainFromB, and_assoc]

lemma noAdjFreeB_cons (b : MemoryBlock) (l : List MemoryBlock) :
    noAdjFreeB (b :: l) = true ↔
      ¬(b.is_free = true ∧ headFree l = true) ∧ noAdjFreeB l = true := by
  cases l with
  | nil => simp [noAdjFreeB, headFree]
  | cons c t =>
      cases hb : b.is_free <;> cases hc : c.is_free <;>
        simp [noAdjFreeB, headFree, hb, hc]

/-! Preservation lemmas for the allocation scan. -/

lemma allocScan_sizesSum (pid size : Int) :
    ∀ (l l' : List MemoryBlock) (a : Int),
      allocScan pid size l = some (l', a) → sizesSum l' = sizesSum l := by
  intro l
  induction l with
  | nil => intro l' a h; simp [allocScan] at h
  | cons b rest ih =>
      intro l' a h
      by_cases hc : b.is_free = true ∧ size ≤ b.size
      · by_cases hs : size < b.size
        · simp only [allocScan, if_pos hc, if_pos hs, Option.some.injEq,
            Prod.mk.injEq] at h
          obtain ⟨rfl, rfl⟩ := h
          simp [sizesSum_cons]
          ring
        · simp only [allocScan, if_pos hc, if_neg hs, Option.some.injEq,
            Prod.mk.injEq] at h
          obtain ⟨rfl, rfl⟩ := h
          simp [sizesSum_cons]
      · simp only [allocScan, if_neg hc, Option.map_eq_some'] at h
        obtain ⟨p, hrec, heq⟩ := h
        cases heq
        simp [sizesSum_cons, ih p.1 p.2 hrec]

lemma allocScan_totalFree (pid size : Int) :
    ∀ (l l' : List MemoryBlock) (a : Int),
      allocScan pid size l = some (l', a) → totalFree l' = totalFree l - size := by
  intro l
  induction l with
  | nil => intro l' a h; simp [allocScan] at h
  | cons b rest ih =>
      intro l' a h
      by_cases hc : b.is_free = true ∧ size ≤ b.size
      · by_cases hs : size < b.size
        · simp only [allocScan, if_pos hc, if_pos hs, Option.some.injEq,
            Prod.mk.injEq] at h
          obtain ⟨rfl, rfl⟩ := h
          simp [totalFree_cons, hc.1]
          ring
        · have hbs : b.size = size := by omega
          simp only [allocScan, if_pos hc, if_neg hs, Option.some.injEq,
            Prod.mk.injEq] at h
          obtain ⟨rfl, rfl⟩ := h
          simp [totalFree_cons, hc.1, hbs]
      · simp only [allocScan, if_neg hc, Option.map_eq_some'] at h
        obtain ⟨p, hrec, heq⟩ := h
        cases heq
        simp [totalFree_cons, ih p.1 p.2 hrec]
        ring

lemma allocScan_chain (pid size : Int) (hsz : 0 < size) :
    ∀ (l : List MemoryBlock) (addr : Int) (l' : List MemoryBlock) (a : Int),
      allocScan pid size l = some (l', a) →
      chainFromB addr l = true → chainFromB addr l' = true := by
  intro l
  induction l with
  | nil => intro addr l' a h; simp [allocScan] at h
  | cons b rest ih =>
      intro addr l' a h hch
      rw [chainFromB_cons] at hch
      obtain ⟨hstart, hpos, hrest⟩ := hch
      by_cases hc : b.is_free = true ∧ size ≤ b.size
      · by_cases hs : size < b.size
        · simp only [allocScan, if_pos hc, if_pos hs, Option.some.injEq,
            Prod.mk.injEq] at h
          obtain ⟨rfl, rfl⟩ := h
          rw [chainFromB_cons]
          refine ⟨hstart, hsz, ?_⟩
          rw [chainFromB_cons]
          refine ⟨rfl, show (0:Int) < b.size - size by omega, ?_⟩
          have harith : b.start_address + size + (b.size - size) =
              b.start_address + b.size := by ring
          rw [harith]
          exact hrest
        · simp only [allocScan, if_pos hc, if_neg hs, Option.some.injEq,
            Prod.mk.injEq] at h
          obtain ⟨rfl, rfl⟩ := h
          rw [chainFromB_cons]
          exact ⟨hstart, hpos, hrest⟩
      · simp only [allocScan, if_neg hc, Option.map_eq_some'] at h
        obtain ⟨p, hrec, heq⟩ := h
        cases heq
        rw [chainFromB_cons]
        exact ⟨hstart, hpos, ih _ p.1 p.2 hrec hrest⟩

lemma allocScan_headFree (pid size : Int) :
    ∀ (l l' : List MemoryBlock) (a : Int),
      allocScan pid size l = some (l', a) →
      headFree l' = true → headFree l = true := by
  intro l
  induction l with
  | nil => intro l' a h; simp [allocScan] at h
  | cons b rest ih =>
      intro l' a h hh
      by_cases hc : b.is_free = true ∧ size ≤ b.size
      · by_cases hs : size < b.size
        · simp only [allocScan, if_pos hc, if_pos hs, Option.some.injEq,
            Prod.mk.injEq] at h
          obtain ⟨rfl, rfl⟩ := h
          simp [headFree] at hh
        · simp only [allocScan, if_pos hc, if_neg hs, Option.some.injEq,
            Prod.mk.injEq] at h
          obtain ⟨rfl, rfl⟩ := h
          simp [headFree] at hh
      · simp only [allocScan, if_neg hc, Option.map_eq_some'] at h
        obtain ⟨p, hrec, heq⟩ := h
        cases heq
        simpa [headFree] using hh

lemma allocScan_noAdjFree (pid size : Int) :
    ∀ (l l' : List MemoryBlock) (a : Int),
      allocScan pid size l = some (l', a) →
      noAdjFreeB l = true → noAdjFreeB l' = true := by
  intro l
  induction l with
  | nil => intro l' a h; simp [allocScan] at h
  | cons b rest ih =>
      intro l' a h hadj
      rw [noAdjFreeB_cons] at hadj
      obtain ⟨hpair, hrest⟩ := hadj
      by_cases hc : b.is_free = true ∧ size ≤ b.size
      · by_cases hs : size < b.size
        · simp only [allocScan, if_pos hc, if_pos hs, Option.some.injEq,
            Prod.mk.injEq] at h
          obtain ⟨rfl, rfl⟩ := h
          rw [noAdjFreeB_cons]
          constructor
          · simp
          · rw [noAdjFreeB_cons]
            constructor
            · intro hcon
              exact hpair ⟨hc.1, hcon.2⟩
            · exact hrest
        · simp only [allocScan, if_pos hc, if_neg hs, Option.some.injEq,
            Prod.mk.injEq] at h
          obtain ⟨rfl, rfl⟩ := h
          rw [noAdjFreeB_cons]
          exact ⟨by simp, hrest⟩
      · simp only [allocScan, if_neg hc, Option.map_eq_some'] at h
        obtain ⟨p, hrec, heq⟩ := h
        cases heq
        rw [noAdjFreeB_cons]
        constructor
        · intro hcon
          exact hpair ⟨hcon.1, allocScan_headFree pid size rest p.1 p.2 hrec hcon.2⟩
        · exact ih p.1 p.2 hrec hrest

/-! Preservation lemmas for the deallocation scan. -/

lemma hasAllocation_cons_false_iff (b : MemoryBlock) (l : List MemoryBlock) (pid : Int) :
    hasAllocation (b :: l) pid = false ↔
      ¬(b.is_free = false ∧ b.process_id = some pid) ∧ hasAllocation l pid = false := by
  cases hb : b.is_free <;> simp [hasAllocation, hb]

lemma deallocScan_none_iff (pid : Int) (l : List MemoryBlock) :
    deallocScan pid l = none ↔ hasAllocation l pid = false := by
  induction l with
  | nil => simp [deallocScan, hasAllocation]
  | cons b rest ih =>
      by_cases hc : b.is_free = false ∧ b.process_id = some pid
      · simp [deallocScan, hc, hasAllocation_cons_false_iff]
      · simp [deallocScan, hc, Option.map_eq_none', ih, hasAllocation_cons_false_iff]

lemma deallocScan_shape (pid : Int) :
    ∀ (l l' : List MemoryBlock) (s a : Int),
      deallocScan pid l = some (l', s, a) →
      l'.length = l.length ∧ sizesSum l' = sizesSum l ∧
        totalFree l' = totalFree l + s ∧
        (∀ addr, chainFromB addr l = true → chainFromB addr l' = true) := by
  intro l
  induction l with
  | nil => intro l' s a h; simp [deallocScan] at h
  | cons b rest ih =>
      intro l' s a h
      by_cases hc : b.is_free = false ∧ b.process_id = some pid
      · simp only [deallocScan, if_pos hc, Option.some.injEq, Prod.mk.injEq] at h
        obtain ⟨rfl, rfl, rfl⟩ := h
        refine ⟨by simp, by simp [sizesSum_cons], ?_, ?_⟩
        · simp [totalFree_cons, hc.1]
          ring
        · intro addr hch
          rw [chainFromB_cons] at hch ⊢
          exact hch
      · simp only [deallocScan, if_neg hc, Option.map_eq_some'] at h
        obtain ⟨⟨l₂, s₂, a₂⟩, hrec, heq⟩ := h
        cases heq
        obtain ⟨hlen, hsum, hfree, hch⟩ := ih l₂ s a hrec
        refine ⟨by simpa using hlen, by simp [sizesSum_cons, hsum], ?_, ?_⟩
        · simp [totalFree_cons, hfree]
          ring
        · intro addr hchain
          rw [chainFromB_cons] at hchain ⊢
          exact ⟨hchain.1, hchain.2.1, hch _ hchain.2.2⟩

/-! Lemmas about the coalescing pass. -/

lemma mergeGo_head :
    ∀ (rest : List MemoryBlock) (cur : MemoryBlock),
      ∃ b' t', (mergeFreeBlocksGo cur rest).1 = b' :: t' ∧
        b'.start_address = cur.start_address ∧ b'.is_free = cur.is_free := by
  intro rest
  induction rest with
  | nil => intro cur; exact ⟨cur, [], rfl, rfl, rfl⟩
  | cons b t ih =>
      intro cur
      by_cases hm : mergeable cur b = true
      · obtain ⟨b', t', heq, h1, h2⟩ := ih { cur with size := cur.size + b.size }
        exact ⟨b', t', by simp [mergeFreeBlocksGo, hm, heq], h1, h2⟩
      · obtain ⟨b', t', heq, h1, h2⟩ := ih b
        exact ⟨cur, (mergeFreeBlocksGo b t).1, by simp [mergeFreeBlocksGo, hm], rfl, rfl⟩

lemma mergeable_congr (a b b' : MemoryBlock)
    (hs : b'.start_address = b.start_address) (hf : b'.is_free = b.is_free) :
    mergeable a b' = mergeable a b := by
  simp [mergeable, hs, hf]

lemma mergeGo_sizesSum :
    ∀ (rest : List MemoryBlock) (cur : MemoryBlock),
      sizesSum (mergeFreeBlocksGo cur rest).1 = cur.size + sizesSum rest := by
  intro rest
  induction rest with
  | nil => intro cur; simp [mergeFreeBlocksGo, sizesSum]
  | cons b t ih =>
      intro cur
      by_cases hm : mergeable cur b = true
      · simp only [mergeFreeBlocksGo, if_pos hm]
        rw [ih]
        simp [sizesSum_cons]
        ring
      · simp only [mergeFreeBlocksGo, if_neg hm]
        rw [sizesSum_cons, ih]
        simp [sizesSum_cons]

lemma mergeGo_totalFree :
    ∀ (rest : List MemoryBlock) (cur : MemoryBlock),
      totalFree (mergeFreeBlocksGo cur rest).1 =
        (if cur.is_free = true then cur.size else 0) + totalFree rest := by
  intro rest
  induction rest with
  | nil =>
      intro cur
      show totalFree [cur] = _
      rw [totalFree_cons]
  | cons b t ih =>
      intro cur
      by_cases hm : mergeable cur b = true
      · have hfree : cur.is_free = true ∧ b.is_free = true := by
          simp [mergeable] at hm
          exact ⟨hm.1.1, hm.1.2⟩
        simp only [mergeFreeBlocksGo, if_pos hm]
        rw [ih]
        simp [totalFree_cons, hfree.1, hfree.2]
        ring
      · simp only [mergeFreeBlocksGo, if_neg hm]
        rw [totalFree_cons, ih]
        simp [totalFree_cons]

lemma mergeGo_length_le :
    ∀ (rest : List MemoryBlock) (cur : MemoryBlock),
      (mergeFreeBlocksGo cur rest).1.length ≤ rest.length + 1 := by
  intro rest
  induction rest with
  | nil => intro cur; simp [mergeFreeBlocksGo]
  | cons b t ih =>
      intro cur
      by_cases hm : mergeable cur b = true
      · simp only [mergeFreeBlocksGo, if_pos hm]
        have := ih { cur with size := cur.size + b.size }
        simp only [List.length_cons]
        omega
      · simp only [mergeFreeBlocksGo, if_neg hm]
        have := ih b
        simp only [List.length_cons]
        omega

lemma mergeGo_chain :
    ∀ (rest : List MemoryBlock) (cur : MemoryBlock) (addr : Int),
      chainFromB addr (cur :: rest) = true →
      chainFromB addr (mergeFreeBlocksGo cur rest).1 = true := by
  intro rest
  induction rest with
  | nil => intro cur addr hch; simpa [mergeFreeBlocksGo] using hch
  | cons b t ih =>
      intro cur addr hch
      rw [chainFromB_cons] at hch
      obtain ⟨ha, hpos, hch'⟩ := hch
      rw [chainFromB_cons] at hch'
      obtain ⟨hb, hbpos, hch''⟩ := hch'
      by_cases hm : mergeable cur b = true
      · simp only [mergeFreeBlocksGo, if_pos hm]
        apply ih
        rw [chainFromB_cons]
        refine ⟨ha, show (0:Int) < cur.size + b.size by omega, ?_⟩
        show chainFromB (cur.start_address + (cur.size + b.size)) t = true
        have harith : cur.start_address + (cur.size + b.size) =
            b.start_address + b.size := by rw [hb]; ring
        rw [harith]
        exact hch''
      · simp only [mergeFreeBlocksGo, if_neg hm]
        rw [chainFromB_cons]
        refine ⟨ha, hpos, ?_⟩
        apply ih
        rw [chainFromB_cons]
        exact ⟨hb, hbpos, hch''⟩

lemma mergeGo_noMergeable :
    ∀ (rest : List MemoryBlock) (cur : MemoryBlock),
      noMergeableB (mergeFreeBlocksGo cur rest).1 = true := by
  intro rest
  induction rest with
  | nil => intro cur; simp [mergeFreeBlocksGo, noMergeableB]
  | cons b t ih =>
      intro cur
      by_cases hm : mergeable cur b = true
      · simp only [mergeFreeBlocksGo, if_pos hm]
        exact ih _
      · simp only [mergeFreeBlocksGo, if_neg hm]
        obtain ⟨b', t', heq, hs, hf⟩ := mergeGo_head t b
        rw [heq]
        simp only [noMergeableB, Bool.and_eq_true]
        refine ⟨?_, by rw [← heq]; exact ih b⟩
        simp [mergeable_congr cur b b' hs hf, hm]

lemma mergeGo_of_noMergeable :
    ∀ (rest : List MemoryBlock) (cur : MemoryBlock),
      noMergeableB (cur :: rest) = true →
      mergeFreeBlocksGo cur rest = (cur :: rest, []) := by
  intro rest
  induction rest with
  | nil => intro cur _; simp [mergeFreeBlocksGo]
  | cons b t ih =>
      intro cur hnm
      simp only [noMergeableB, Bool.and_eq_true] at hnm
      have hm : mergeable cur b = false := by
        cases h : mergeable cur b
        · rfl
        · rw [h] at hnm; simp at hnm
      simp only [mergeFreeBlocksGo, hm, Bool.false_eq_true, if_false]
      rw [ih b hnm.2]

lemma chain_noMergeable_noAdjFree :
    ∀ (l : List MemoryBlock) (addr : Int),
      chainFromB addr l = true → noMergeableB l = true → noAdjFreeB l = true := by
  intro l
  induction l with
  | nil => intro addr _ _; simp [noAdjFreeB]
  | cons a t ih =>
      intro addr hch hnm
      cases t with
      | nil => simp [noAdjFreeB]
      | cons b t' =>
          rw [chainFromB_cons] at hch
          obtain ⟨ha, hpos, hch'⟩ := hch
          have hb : b.start_address = a.start_address + a.size :=
            ((chainFromB_cons _ _ _).mp hch').1
          simp only [noMergeableB, Bool.and_eq_true] at hnm
          simp only [noAdjFreeB, Bool.and_eq_true]
          refine ⟨?_, ih _ hch' hnm.2⟩
          have hm := hnm.1
          simp only [mergeable, hb, beq_self_eq_true, Bool.and_true] at hm
          cases hf : a.is_free <;> cases hg : b.is_free <;>
            simp [hf, hg] at hm ⊢

lemma mergeAux_totalFree (l : List MemoryBlock) :
    totalFree (mergeFreeBlocksAux l).1 = totalFree l := by
  cases l with
  | nil => rfl
  | cons b t =>
      show totalFree (mergeFreeBlocksGo b t).1 = _
      rw [mergeGo_totalFree, totalFree_cons]

lemma mergeAux_sizesSum (l : List MemoryBlock) :
    sizesSum (mergeFreeBlocksAux l).1 = sizesSum l := by
  cases l with
  | nil => rfl
  | cons b t =>
      show sizesSum (mergeFreeBlocksGo b t).1 = _
      rw [mergeGo_sizesSum, sizesSum_cons]

lemma mergeAux_chain (l : List MemoryBlock) (addr : Int) :
    chainFromB addr l = true → chainFromB addr (mergeFreeBlocksAux l).1 = true := by
  cases l with
  | nil => intro h; exact h
  | cons b t => exact mergeGo_chain t b addr

lemma mergeAux_noMergeable (l : List MemoryBlock) :
    noMergeableB (mergeFreeBlocksAux l).1 = true := by
  cases l with
  | nil => rfl
  | cons b t => exact mergeGo_noMergeable t b

lemma mergeAux_of_noMergeable (l : List MemoryBlock) :
    noMergeableB l = true → mergeFreeBlocksAux l = (l, []) := by
  cases l with
  | nil => intro _; rfl
  | cons b t => exact mergeGo_of_noMergeable t b

lemma mergeAux_length_le (l : List MemoryBlock) :
    (mergeFreeBlocksAux l).1.length ≤ l.length := by
  cases l with
  | nil => simp [mergeFreeBlocksAux]
  | cons b t =>
      have := mergeGo_length_le t b
      simpa [mergeFreeBlocksAux] using this

lemma allocScan_dealloc_roundtrip (pid size : Int) :
    ∀ (l l' : List MemoryBlock) (a : Int),
      hasAllocation l pid = false → allocScan pid size l = some (l', a) →
      ∃ l'', deallocScan pid l' = some (l'', size, a) := by
  intro l
  induction l with
  | nil => intro l' a _ h; simp [allocScan] at h
  | cons b rest ih =>
      intro l' a hdup h
      rw [hasAllocation_cons_false_iff] at hdup
      obtain ⟨hb, hrest⟩ := hdup
      by_cases hc : b.is_free = true ∧ size ≤ b.size
      · by_cases hs : size < b.size
        · simp only [allocScan, if_pos hc, if_pos hs, Option.some.injEq,
            Prod.mk.injEq] at h
          obtain ⟨rfl, rfl⟩ := h
          exact ⟨⟨b.start_address, size, true, none⟩ ::
                 ⟨b.start_address + size, b.size - size, true, none⟩ :: rest,
            by simp [deallocScan]⟩
        · have hbs : b.size = size := by omega
          simp only [allocScan, if_pos hc, if_neg hs, Option.some.injEq,
            Prod.mk.injEq] at h
          obtain ⟨rfl, rfl⟩ := h
          exact ⟨⟨b.start_address, b.size, true, none⟩ :: rest,
            by simp [deallocScan, hbs]⟩
      · simp only [allocScan, if_neg hc, Option.map_eq_some'] at h
        obtain ⟨p, hrec, heq⟩ := h
        cases heq
        obtain ⟨l'', hd⟩ := ih p.1 p.2 hrest hrec
        refine ⟨b :: l'', ?_⟩
        simp only [deallocScan, if_neg hb, hd, Option.map_some']

lemma allocate_length_cases (m : FirstFitMemoryManager) (pid size : Int) :
    (allocate_memory m pid size).2.memory_blocks.length = m.memory_blocks.length ∨
    ((allocate_memory m pid size).2.memory_blocks.length = m.memory_blocks.length + 1 ∧
      ∃ i b, firstFitIndex size m.memory_blocks = some i ∧
        m.memory_blocks[i]? = some b ∧ size < b.size) := by
  by_cases h1 : size ≤ 0
  · left
    simp [allocate_memory, if_pos h1]
  · by_cases h2 : hasAllocation m.memory_blocks pid = true
    · left
      simp [allocate_memory, if_neg h1, if_pos h2]
    · cases hscan : allocScan pid size m.memory_blocks with
      | none =>
          left
          simp [allocate_memory, if_neg h1, if_neg h2, hscan]
      | some p =>
          obtain ⟨l', a⟩ := p
          cases hidx : firstFitIndex size m.memory_blocks with
          | none =>
              rw [(allocScan_none_iff pid size m.memory_blocks).mpr hidx] at hscan
              exact Option.noConfusion hscan
          | some i =>
              obtain ⟨b, hb, hfree, hle⟩ := firstFitIndex_found size m.memory_blocks i hidx
              have hshape := allocScan_of_firstFit pid size m.memory_blocks i b hidx hb
              rw [hscan] at hshape
              obtain ⟨rfl, rfl⟩ : l' = _ ∧ a = b.start_address := by
                have := Option.some.inj hshape
                exact ⟨congrArg Prod.fst this, congrArg Prod.snd this⟩
              have hi_lt : i < m.memory_blocks.length := by
                rw [List.getElem?_eq_some] at hb
                exact hb.1
              by_cases hsplit : size < b.size
              · right
                refine ⟨?_, i, b, rfl, hb, hsplit⟩
                simp only [allocate_memory, if_neg h1, if_neg h2, hscan]
                simp [List.length_take, List.length_drop, if_pos hsplit]
                omega
              · left
                simp only [allocate_memory, if_neg h1, if_neg h2, hscan]
                simp [List.length_take, List.length_drop, if_neg hsplit]
                omega

lemma deallocate_length_le (m : FirstFitMemoryManager) (pid : Int) :
    (deallocate_memory m pid).2.memory_blocks.length ≤ m.memory_blocks.length := by
  cases hscan : deallocScan pid m.memory_blocks with
  | none => simp [deallocate_memory, hscan]
  | some p =>
      obtain ⟨l₂, s, a⟩ := p
      have h := (deallocScan_shape pid m.memory_blocks l₂ s a hscan).1
      simp only [deallocate_memory, hscan]
      calc (mergeFreeBlocksAux l₂).1.length ≤ l₂.length := mergeAux_length_le l₂
        _ = m.memory_blocks.length := h

end FirstFitMemoryManager

open FirstFitMemoryManager

/-- C9: for every block list, running the coalesce pass `_merge_free_blocks`
twice in a row yields the same block sequence as running it once; the second
run performs no merge (it appends no `INFO: Merged` log entry) and makes no
change. -/
theorem C9_coalesce_idempotent (l : List MemoryBlock) :
    mergeFreeBlocksAux (mergeFreeBlocksAux l).1 = ((mergeFreeBlocksAux l).1, []) :=
  mergeAux_of_noMergeable _ (mergeAux_noMergeable l)

/-- C5 (amended): the constructor performs no validation.  For every
`total_size`, including non-positive ones, construction succeeds and yields a
manager with `total_memory = total_size`, a single free block spanning
`[0, total_size)` and an empty log; nothing fails or panics. -/
theorem C5_constructor_accepts_any_size (n : Int) :
    (init n).total_memory = n ∧
    (init n).memory_blocks = [⟨0, n, true, none⟩] ∧
    (init n).allocation_log = [] :=
  ⟨rfl, rfl, rfl⟩

/-- C5 counterexample: the claim says `new(total_size)` fails for every
`total_size <= 0`, but the source constructor accepts `-5` (and `0`) and
produces a fully usable allocator: its operations run and return normally
and `get_memory_status` is defined on it. -/
theorem C5_counterexample_nonpositive_accepted :
    init_checked (-5) = none ∧
    (init (-5)).memory_blocks = [⟨0, -5, true, none⟩] ∧
    (get_memory_status (init (-5))).isSome = true ∧
    (allocate_memory (init (-5)) 1 3).1 = false ∧
    (allocate_memory (init (-5)) 1 3).2.memory_blocks = [⟨0, -5, true, none⟩] := by
  decide

/-- C10: `get_memory_status` is total (never raises) exactly on the states
with `total_memory ≠ 0`; the unguarded division makes it undefined when
`total_memory = 0`, a state the constructor itself accepts. -/
theorem C10_status_defined_iff_total_memory_nonzero :
    (∀ m : FirstFitMemoryManager,
      (get_memory_status m).isSome = true ↔ m.total_memory ≠ 0) ∧
    get_memory_status (init 0) = none := by
  constructor
  · intro m
    by_cases h : m.total_memory = 0 <;> simp [get_memory_status, h]
  · rfl

/-- C7: `get_memory_status` is a pure aggregation over the current block
sequence: `total_free` sums the free block sizes, `total_allocated` sums the
owned block sizes, `free_block_count` counts the free blocks,
`external_fragmentation` equals `max 0 (free_block_count - 1)`,
`memory_utilization` equals `total_allocated / total_memory` as a percentage,
and `internal_fragmentation` is always `0`. -/
theorem C7_status_pure_aggregation (m : FirstFitMemoryManager)
    (h : m.total_memory ≠ 0) :
    ∃ s, get_memory_status m = some s ∧
      s.blocks = m.memory_blocks ∧
      s.total_memory = m.total_memory ∧
      s.total_free = totalFree m.memory_blocks ∧
      s.total_allocated = totalAllocated m.memory_blocks ∧
      s.free_block_count = ((m.memory_blocks.filter fun b => b.is_free).length : Int) ∧
      s.external_fragmentation = max 0 (s.free_block_count - 1) ∧
      s.internal_fragmentation = 0 ∧
      s.memory_utilization = (s.total_allocated : ℚ) / (m.total_memory : ℚ) * 100 := by
  simp only [get_memory_status, if_neg h]
  refine ⟨_, rfl, rfl, rfl, rfl, rfl, rfl, ?_, rfl, rfl⟩
  by_cases hf : (m.memory_blocks.filter fun b => b.is_free) = []
  · rw [hf]
    simp
  · rw [if_pos hf]
    have hpos : 0 < (m.memory_blocks.filter fun b => b.is_free).length :=
      List.length_pos.mpr hf
    have h1 : (1 : Int) ≤ ((m.memory_blocks.filter fun b => b.is_free).length : Int) := by
      exact_mod_cast hpos
    show ((m.memory_blocks.filter fun b => b.is_free).length : Int) - 1 =
      max 0 (((m.memory_blocks.filter fun b => b.is_free).length : Int) - 1)
    rw [max_eq_right (by omega)]

/-- C7 witness: the aggregation claims instantiated at the fragmentation
scenario state, whose status has two free blocks. -/
theorem C7_witness :
    ∃ s, get_memory_status exampleState = some s ∧
      s.blocks = exampleState.memory_blocks ∧
      s.total_memory = exampleState.total_memory ∧
      s.total_free = totalFree exampleState.memory_blocks ∧
      s.total_allocated = totalAllocated exampleState.memory_blocks ∧
      s.free_block_count =
        ((exampleState.memory_blocks.filter fun b => b.is_free).length : Int) ∧
      s.external_fragmentation = max 0 (s.free_block_count - 1) ∧
      s.internal_fragmentation = 0 ∧
      s.memory_utilization =
        (s.total_allocated : ℚ) / (exampleState.total_memory : ℚ) * 100 :=
  C7_status_pure_aggregation exampleState (by decide)

/-- C4: error atomicity and reported-value errors.  `allocate_memory` fails
(returns `false` rather than raising) exactly when the size is non-positive,
the owner already holds a block, or no free block is large enough;
`deallocate_memory` fails exactly when the owner holds no block; and on every
failure the block sequence is left exactly as it was before the call. -/
theorem C4_failures_reported_and_atomic (m : FirstFitMemoryManager) (pid size : Int) :
    ((allocate_memory m pid size).1 = false ↔
      size ≤ 0 ∨ hasAllocation m.memory_blocks pid = true ∨
        ∀ b ∈ m.memory_blocks, ¬(b.is_free = true ∧ size ≤ b.size)) ∧
    ((allocate_memory m pid size).1 = false →
      (allocate_memory m pid size).2.memory_blocks = m.memory_blocks) ∧
    ((deallocate_memory m pid).1 = false ↔ hasAllocation m.memory_blocks pid = false) ∧
    ((deallocate_memory m pid).1 = false →
      (deallocate_memory m pid).2.memory_blocks = m.memory_blocks) := by
  refine ⟨?_, ?_, ?_, ?_⟩
  · by_cases h1 : size ≤ 0
    · simp only [allocate_memory, if_pos h1]
      simp [h1]
    · by_cases h2 : hasAllocation m.memory_blocks pid = true
      · simp only [allocate_memory, if_neg h1, if_pos h2]
        simp [h2]
      · cases hscan : allocScan pid size m.memory_blocks with
        | none =>
            simp only [allocate_memory, if_neg h1, if_neg h2, hscan]
            simp only [true_iff]
            exact Or.inr (Or.inr ((firstFitIndex_none_iff size m.memory_blocks).mp
              ((allocScan_none_iff pid size m.memory_blocks).mp hscan)))
        | some p =>
            obtain ⟨l', a⟩ := p
            simp only [allocate_memory, if_neg h1, if_neg h2, hscan]
            simp only [Bool.true_eq_false, false_iff]
            rintro (h | h | hall)
            · exact h1 h
            · exact h2 h
            · have : allocScan pid size m.memory_blocks = none :=
                (allocScan_none_iff pid size m.memory_blocks).mpr
                  ((firstFitIndex_none_iff size m.memory_blocks).mpr hall)
              rw [this] at hscan
              exact Option.noConfusion hscan
  · intro hfail
    by_cases h1 : size ≤ 0
    · simp only [allocate_memory, if_pos h1]
    · by_cases h2 : hasAllocation m.memory_blocks pid = true
      · simp only [allocate_memory, if_neg h1, if_pos h2]
      · cases hscan : allocScan pid size m.memory_blocks with
        | none => simp only [allocate_memory, if_neg h1, if_neg h2, hscan]
        | some p =>
            simp only [allocate_memory, if_neg h1, if_neg h2, hscan] at hfail
            exact absurd hfail (by simp)
  · cases hscan : deallocScan pid m.memory_blocks with
    | none =>
        simp only [deallocate_memory, hscan]
        simp only [true_iff]
        exact (deallocScan_none_iff pid m.memory_blocks).mp hscan
    | some p =>
        obtain ⟨l₂, s, a⟩ := p
        simp only [deallocate_memory, hscan]
        simp only [Bool.true_eq_false, false_iff]
        intro hfalse
        have : deallocScan pid m.memory_blocks = none :=
          (deallocScan_none_iff pid m.memory_blocks).mpr hfalse
        rw [this] at hscan
        exact Option.noConfusion hscan
  · intro hfail
    cases hscan : deallocScan pid m.memory_blocks with
    | none => simp only [deallocate_memory, hscan]
    | some p =>
        simp only [deallocate_memory, hscan] at hfail
        exact absurd hfail (by simp)

/-- C4 witness: invalid size, out-of-memory allocation and unknown-owner
deallocation on a fresh 10-unit manager all report failure and leave the
block list untouched. -/
theorem C4_witness :
    (allocate_memory (init 10) 1 0).2.memory_blocks = (init 10).memory_blocks ∧
    (allocate_memory (init 10) 1 20).2.memory_blocks = (init 10).memory_blocks ∧
    (deallocate_memory (init 10) 3).2.memory_blocks = (init 10).memory_blocks :=
  ⟨(C4_failures_reported_and_atomic (init 10) 1 0).2.1 (by decide),
   (C4_failures_reported_and_atomic (init 10) 1 20).2.1 (by decide),
   (C4_failures_reported_and_atomic (init 10) 3 1).2.2.2 (by decide)⟩

/-- C2: first-fit placement.  For a valid request (positive size, owner holds
no block): if no free block is at least `size` large the call fails and the
blocks are untouched; otherwise the request is placed in the free block at
the smallest qualifying index `i` — every earlier block is either not free or
too small, the earlier blocks are untouched, and the matched block becomes the
owner's block of the requested size at its original start address. -/
theorem C2_first_fit_placement (m : FirstFitMemoryManager) (pid size : Int)
    (hsz : 0 < size) (hdup : hasAllocation m.memory_blocks pid = false) :
    (firstFitIndex size m.memory_blocks = none →
      (allocate_memory m pid size).1 = false ∧
      (allocate_memory m pid size).2.memory_blocks = m.memory_blocks) ∧
    (∀ i, firstFitIndex size m.memory_blocks = some i →
      ∃ b, m.memory_blocks[i]? = some b ∧ b.is_free = true ∧ size ≤ b.size ∧
        (∀ j, j < i → ∀ b', m.memory_blocks[j]? = some b' →
          ¬(b'.is_free = true ∧ size ≤ b'.size)) ∧
        (allocate_memory m pid size).1 = true ∧
        (allocate_memory m pid size).2.memory_blocks =
          m.memory_blocks.take i ++
            (if size < b.size then
              [⟨b.start_address, size, false, some pid⟩,
               ⟨b.start_address + size, b.size - size, true, none⟩]
            else [⟨b.start_address, b.size, false, some pid⟩]) ++
            m.memory_blocks.drop (i + 1)) := by
  have h1 : ¬size ≤ 0 := by omega
  have h2 : ¬hasAllocation m.memory_blocks pid = true := by simp [hdup]
  constructor
  · intro hnone
    have : allocScan pid size m.memory_blocks = none :=
      (allocScan_none_iff pid size m.memory_blocks).mpr hnone
    simp [allocate_memory, if_neg h1, if_neg h2, this]
  · intro i hi
    obtain ⟨b, hb, hfree, hle⟩ := firstFitIndex_found size m.memory_blocks i hi
    refine ⟨b, hb, hfree, hle, firstFitIndex_min size m.memory_blocks i hi, ?_, ?_⟩
    · have := allocScan_of_firstFit pid size m.memory_blocks i b hi hb
      simp only [allocate_memory, if_neg h1, if_neg h2, this]
    · have := allocScan_of_firstFit pid size m.memory_blocks i b hi hb
      simp only [allocate_memory, if_neg h1, if_neg h2, this]

/-- C2 witness: in the fragmentation scenario (free ranges `[0,200)` and
`[500,1000)`), allocating 150 units for owner 4 places the request at
address 0 — the first qualifying block, not the later larger one. -/
theorem C2_witness :
    (firstFitIndex 150 exampleState.memory_blocks = none →
      (allocate_memory exampleState 4 150).1 = false ∧
      (allocate_memory exampleState 4 150).2.memory_blocks = exampleState.memory_blocks) ∧
    (∀ i, firstFitIndex 150 exampleState.memory_blocks = some i →
      ∃ b, exampleState.memory_blocks[i]? = some b ∧ b.is_free = true ∧ 150 ≤ b.size ∧
        (∀ j, j < i → ∀ b', exampleState.memory_blocks[j]? = some b' →
          ¬(b'.is_free = true ∧ 150 ≤ b'.size)) ∧
        (allocate_memory exampleState 4 150).1 = true ∧
        (allocate_memory exampleState 4 150).2.memory_blocks =
          exampleState.memory_blocks.take i ++
            (if 150 < b.size then
              [⟨b.start_address, 150, false, some 4⟩,
               ⟨b.start_address + 150, b.size - 150, true, none⟩]
            else [⟨b.start_address, b.size, false, some 4⟩]) ++
            exampleState.memory_blocks.drop (i + 1)) :=
  C2_first_fit_placement exampleState 4 150 (by decide) (by decide)

/-- C3: split correctness.  When a valid request matches a free block `b` at
index `i` with `b.size > size`, the matched block becomes the owner's block
of exactly `size` at its original start address, and a new free block of size
`b.size - size` at address `start + size` is inserted immediately after it
(block count grows by one).  Moreover the split is the only point in the
program where the block count can grow: any `allocate_memory` call grows the
block count by at most one and only in the split case, and `deallocate_memory`
never increases the block count. -/
theorem C3_split_correctness (m : FirstFitMemoryManager) (pid size : Int)
    (i : Nat) (b : MemoryBlock)
    (hsz : 0 < size) (hdup : hasAllocation m.memory_blocks pid = false)
    (hi : firstFitIndex size m.memory_blocks = some i)
    (hb : m.memory_blocks[i]? = some b) (hsplit : size < b.size) :
    (allocate_memory m pid size).1 = true ∧
    (allocate_memory m pid size).2.memory_blocks =
      m.memory_blocks.take i ++
        [⟨b.start_address, size, false, some pid⟩,
         ⟨b.start_address + size, b.size - size, true, none⟩] ++
        m.memory_blocks.drop (i + 1) ∧
    (allocate_memory m pid size).2.memory_blocks.length = m.memory_blocks.length + 1 ∧
    (∀ (m' : FirstFitMemoryManager) (pid' size' : Int),
      (allocate_memory m' pid' size').2.memory_blocks.length ≤
        m'.memory_blocks.length + 1 ∧
      ((allocate_memory m' pid' size').2.memory_blocks.length =
          m'.memory_blocks.length + 1 →
        ∃ i' b', firstFitIndex size' m'.memory_blocks = some i' ∧
          m'.memory_blocks[i']? = some b' ∧ size' < b'.size)) ∧
    (∀ (m' : FirstFitMemoryManager) (pid' : Int),
      (deallocate_memory m' pid').2.memory_blocks.length ≤ m'.memory_blocks.length) := by
  have h1 : ¬size ≤ 0 := by omega
  have h2 : ¬hasAllocation m.memory_blocks pid = true := by simp [hdup]
  have hscan := allocScan_of_firstFit pid size m.memory_blocks i b hi hb
  rw [if_pos hsplit] at hscan
  have hi_lt : i < m.memory_blocks.length := by
    rw [List.getElem?_eq_some] at hb
    exact hb.1
  refine ⟨?_, ?_, ?_, ?_, ?_⟩
  · simp only [allocate_memory, if_neg h1, if_neg h2, hscan]
  · simp only [allocate_memory, if_neg h1, if_neg h2, hscan]
  · simp only [allocate_memory, if_neg h1, if_neg h2, hscan]
    simp [List.length_take, List.length_drop]
    omega
  · intro m' pid' size'
    rcases allocate_length_cases m' pid' size' with h | ⟨h, hex⟩
    · exact ⟨by omega, fun hcon => absurd hcon (by omega)⟩
    · exact ⟨by omega, fun _ => hex⟩
  · exact deallocate_length_le

/-- C3 witness: allocating 300 units in a fresh 1000-unit manager splits the
single free block `[0,1000)` into an owned `[0,300)` and a free `[300,1000)`. -/
theorem C3_witness :
    (allocate_memory (init 1000) 1 300).1 = true ∧
    (allocate_memory (init 1000) 1 300).2.memory_blocks =
      (init 1000).memory_blocks.take 0 ++
        [⟨0, 300, false, some 1⟩, ⟨0 + 300, 1000 - 300, true, none⟩] ++
        (init 1000).memory_blocks.drop (0 + 1) ∧
    (allocate_memory (init 1000) 1 300).2.memory_blocks.length =
      (init 1000).memory_blocks.length + 1 ∧
    (∀ (m' : FirstFitMemoryManager) (pid' size' : Int),
      (allocate_memory m' pid' size').2.memory_blocks.length ≤
        m'.memory_blocks.length + 1 ∧
      ((allocate_memory m' pid' size').2.memory_blocks.length =
          m'.memory_blocks.length + 1 →
        ∃ i' b', firstFitIndex size' m'.memory_blocks = some i' ∧
          m'.memory_blocks[i']? = some b' ∧ size' < b'.size)) ∧
    (∀ (m' : FirstFitMemoryManager) (pid' : Int),
      (deallocate_memory m' pid').2.memory_blocks.length ≤ m'.memory_blocks.length) :=
  C3_split_correctness (init 1000) 1 300 0 ⟨0, 1000, true, none⟩
    (by decide) (by decide) (by decide) (by decide) (by decide)

/-- C6: exact-fit correctness.  When a valid request matches a free block
whose size equals the requested size, the block is marked owned in place (same
start, same size, no new block: the block count is unchanged), `total_free`
drops by exactly the requested size, and in particular allocating exactly the
remaining free memory leaves `total_free = 0`. -/
theorem C6_exact_fit (m : FirstFitMemoryManager) (pid size : Int)
    (i : Nat) (b : MemoryBlock)
    (hsz : 0 < size) (hdup : hasAllocation m.memory_blocks pid = false)
    (hi : firstFitIndex size m.memory_blocks = some i)
    (hb : m.memory_blocks[i]? = some b) (hexact : b.size = size) :
    (allocate_memory m pid size).1 = true ∧
    (allocate_memory m pid size).2.memory_blocks =
      m.memory_blocks.take i ++ [⟨b.start_address, b.size, false, some pid⟩] ++
        m.memory_blocks.drop (i + 1) ∧
    (allocate_memory m pid size).2.memory_blocks.length = m.memory_blocks.length ∧
    totalFree (allocate_memory m pid size).2.memory_blocks =
      totalFree m.memory_blocks - size ∧
    (size = totalFree m.memory_blocks →
      totalFree (allocate_memory m pid size).2.memory_blocks = 0) := by
  have h1 : ¬size ≤ 0 := by omega
  have h2 : ¬hasAllocation m.memory_blocks pid = true := by simp [hdup]
  have hnot : ¬size < b.size := by omega
  have hscan := allocScan_of_firstFit pid size m.memory_blocks i b hi hb
  rw [if_neg hnot] at hscan
  have hi_lt : i < m.memory_blocks.length := by
    rw [List.getElem?_eq_some] at hb
    exact hb.1
  have h4 : totalFree (allocate_memory m pid size).2.memory_blocks =
      totalFree m.memory_blocks - size := by
    simp only [allocate_memory, if_neg h1, if_neg h2, hscan]
    exact allocScan_totalFree pid size m.memory_blocks _ _ hscan
  refine ⟨?_, ?_, ?_, h4, ?_⟩
  · simp only [allocate_memory, if_neg h1, if_neg h2, hscan]
  · simp only [allocate_memory, if_neg h1, if_neg h2, hscan]
  · simp only [allocate_memory, if_neg h1, if_neg h2, hscan]
    simp [List.length_take, List.length_drop]
    omega
  · intro hfull
    rw [h4, ← hfull]
    ring

/-- C6 witness: allocating exactly the whole free space of a fresh 100-unit
manager marks the single block owned in place and leaves `total_free = 0`. -/
theorem C6_witness :
    (allocate_memory (init 100) 1 100).1 = true ∧
    (allocate_memory (init 100) 1 100).2.memory_blocks =
      (init 100).memory_blocks.take 0 ++ [⟨0, 100, false, some 1⟩] ++
        (init 100).memory_blocks.drop (0 + 1) ∧
    (allocate_memory (init 100) 1 100).2.memory_blocks.length =
      (init 100).memory_blocks.length ∧
    totalFree (allocate_memory (init 100) 1 100).2.memory_blocks =
      totalFree (init 100).memory_blocks - 100 ∧
    (100 = totalFree (init 100).memory_blocks →
      totalFree (allocate_memory (init 100) 1 100).2.memory_blocks = 0) :=
  C6_exact_fit (init 100) 1 100 0 ⟨0, 100, true, none⟩
    (by decide) (by decide) (by decide) (by decide) (by decide)

/-- C8: round-trip.  Whenever `allocate_memory` succeeds, immediately
deallocating the same owner (whose coalesce pass runs as part of
`deallocate_memory`) restores the `total_free` of the state before the
allocation. -/
theorem C8_roundtrip_total_free (m : FirstFitMemoryManager) (pid size : Int)
    (h : (allocate_memory m pid size).1 = true) :
    totalFree (deallocate_memory (allocate_memory m pid size).2 pid).2.memory_blocks =
      totalFree m.memory_blocks := by
  by_cases h1 : size ≤ 0
  · rw [allocate_memory, if_pos h1] at h
    exact absurd h (by simp)
  · by_cases h2 : hasAllocation m.memory_blocks pid = true
    · rw [allocate_memory, if_neg h1, if_pos h2] at h
      exact absurd h (by simp)
    · cases hscan : allocScan pid size m.memory_blocks with
      | none =>
          simp only [allocate_memory, if_neg h1, if_neg h2, hscan] at h
          exact absurd h (by simp)
      | some p =>
          obtain ⟨l', a⟩ := p
          have h2' : hasAllocation m.memory_blocks pid = false := by
            cases hh : hasAllocation m.memory_blocks pid
            · rfl
            · exact absurd hh h2
          obtain ⟨l'', hd⟩ :=
            allocScan_dealloc_roundtrip pid size m.memory_blocks l' a h2' hscan
          simp only [allocate_memory, if_neg h1, if_neg h2, hscan]
          simp only [deallocate_memory, hd]
          rw [mergeAux_totalFree]
          have ha := allocScan_totalFree pid size m.memory_blocks l' a hscan
          have hb := (deallocScan_shape pid l' l'' size a hd).2.2.1
          omega

/-- C8 witness: allocate 20 units for owner 1 in a fresh 50-unit manager,
then deallocate owner 1; `total_free` returns to 50. -/
theorem C8_witness :
    totalFree (deallocate_memory (allocate_memory (init 50) 1 20).2 1).2.memory_blocks =
      totalFree (init 50).memory_blocks :=
  C8_roundtrip_total_free (init 50) 1 20 (by decide)

/-- C1: for every sequence of `allocate_memory`/`deallocate_memory` calls
starting from a freshly constructed manager with positive `total_memory`, the
block sequence partitions `[0, total_memory)` in ascending start order with
no gaps or overlaps — block `0` starts at address `0`, every block has
positive size, each block starts where its predecessor ends, and the sizes
sum to `total_memory` (invariant I1) — and no two adjacent blocks are both
free (invariant I2). -/
theorem C1_invariants_preserved (n : Int) (m : FirstFitMemoryManager)
    (hn : 0 < n) (hr : Reachable n m) :
    m.total_memory = n ∧
    chainFromB 0 m.memory_blocks = true ∧
    sizesSum m.memory_blocks = m.total_memory ∧
    noAdjFreeB m.memory_blocks = true := by
  induction hr with
  | base =>
      refine ⟨rfl, ?_, ?_, ?_⟩
      · show chainFromB 0 [⟨0, n, true, none⟩] = true
        rw [chainFromB_cons]
        exact ⟨rfl, hn, rfl⟩
      · show sizesSum [⟨0, n, true, none⟩] = n
        simp [sizesSum]
      · show noAdjFreeB [⟨0, n, true, none⟩] = true
        rfl
  | alloc m pid size hr ih =>
      by_cases h1 : size ≤ 0
      · simp only [allocate_memory, if_pos h1]
        exact ih
      · by_cases h2 : hasAllocation m.memory_blocks pid = true
        · simp only [allocate_memory, if_neg h1, if_pos h2]
          exact ih
        · cases hscan : allocScan pid size m.memory_blocks with
          | none =>
              simp only [allocate_memory, if_neg h1, if_neg h2, hscan]
              exact ih
          | some p =>
              obtain ⟨l', a⟩ := p
              obtain ⟨htm, hch, hsum, hadj⟩ := ih
              simp only [allocate_memory, if_neg h1, if_neg h2, hscan]
              refine ⟨htm, ?_, ?_, ?_⟩
              · show chainFromB 0 l' = true
                exact allocScan_chain pid size (by omega) m.memory_blocks 0 l' a hscan hch
              · show sizesSum l' = m.total_memory
                rw [allocScan_sizesSum pid size m.memory_blocks l' a hscan]
                exact hsum
              · show noAdjFreeB l' = true
                exact allocScan_noAdjFree pid size m.memory_blocks l' a hscan hadj
  | dealloc m pid hr ih =>
      cases hscan : deallocScan pid m.memory_blocks with
      | none =>
          simp only [deallocate_memory, hscan]
          exact ih
      | some p =>
          obtain ⟨l₂, s, a⟩ := p
          obtain ⟨htm, hch, hsum, hadj⟩ := ih
          obtain ⟨hlen, hsum2, hfree2, hch2⟩ :=
            deallocScan_shape pid m.memory_blocks l₂ s a hscan
          simp only [deallocate_memory, hscan]
          have hch' : chainFromB 0 (mergeFreeBlocksAux l₂).1 = true :=
            mergeAux_chain l₂ 0 (hch2 0 hch)
          refine ⟨htm, hch', ?_, ?_⟩
          · show sizesSum (mergeFreeBlocksAux l₂).1 = m.total_memory
            rw [mergeAux_sizesSum, hsum2]
            exact hsum
          · show noAdjFreeB (mergeFreeBlocksAux l₂).1 = true
            exact chain_noMergeable_noAdjFree _ 0 hch' (mergeAux_noMergeable l₂)

/-- C1 witness: the invariants instantiated at the state reached from a fresh
10-unit manager by one allocation and one deallocation. -/
theorem C1_witness :
    (deallocate_memory (allocate_memory (init 10) 1 3).2 1).2.total_memory = 10 ∧
    chainFromB 0
      (deallocate_memory (allocate_memory (init 10) 1 3).2 1).2.memory_blocks = true ∧
    sizesSum (deallocate_memory (allocate_memory (init 10) 1 3).2 1).2.memory_blocks =
      (deallocate_memory (allocate_memory (init 10) 1 3).2 1).2.total_memory ∧
    noAdjFreeB
      (deallocate_memory (allocate_memory (init 10) 1 3).2 1).2.memory_blocks = true :=
  C1_invariants_preserved 10 (deallocate_memory (allocate_memory (init 10) 1 3).2 1).2
    (by decide)
    (Reachable.dealloc (allocate_memory (init 10) 1 3).2 1
      (Reachable.alloc (init 10) 1 3 Reachable.base))
